import Mathlib

/-!
Verification of the `bgunnarsson/date` utility library.

The repository ships two parallel implementations of a small date/time
formatting module:

* `date.ts` (the extended variant): `stableKey`, cached `getDtf`/`getRtf`,
  single-regex `formatTokens`, and `relative` with month/year buckets and
  truncation-toward-zero rounding;
* `index.ts` (the compact variant): JSON-keyed `dtf`/`rtf` caches,
  `formatPreset`, `formatRelative` with `Math.round` and minute..week
  buckets, sequential-replace `formatTokensLocal`, the `format` dispatcher,
  and `addDays`.

Both variants are embedded below.  JavaScript objects are modelled as
association lists of `(String, JSVal)` entries, JavaScript `Date` values as
their millisecond time value (`Int`, with `Option` for the invalid/NaN
date), and the host's `Intl` formatters as opaque rendering functions.
-/

/-- A JavaScript runtime value as discriminated by `stableKey`
(`undefined`, `null`, string, number, boolean, or any other object).
Numbers are modelled as integers (every value actually stored in
`Intl` option bags is integral); composite values are carried by their
`JSON.stringify` image, which is all `stableKey` ever looks at. -/
inductive JSVal where
  | undef : JSVal
  | null : JSVal
  | str : String → JSVal
  | num : Int → JSVal
  | bool : Bool → JSVal
  | obj : String → JSVal
deriving DecidableEq, Repr

/-- Decimal digits of `n`, most significant first, via fuel-guarded
division (`fuel ≥ n` suffices).  Mirrors the digit sequence JavaScript
produces for an integral number. -/
def natDigitsAux : Nat → Nat → List Char
  | 0, _ => []
  | fuel + 1, n => if n = 0 then [] else natDigitsAux fuel (n / 10) ++ [Nat.digitChar (n % 10)]

/-- JavaScript `String(n)` for a nonnegative integral number. -/
def natStr (n : Nat) : String := if n = 0 then "0" else ⟨natDigitsAux n n⟩

/-- JavaScript `String(v)` (also the template interpolation `${v}`) for an
integral number. -/
def intStr (v : Int) : String := if v < 0 then "-" ++ natStr v.natAbs else natStr v.natAbs

/-- JavaScript property access `obj[k]` on an association-list object:
the value of the first entry named `k`, or `undefined` when absent. -/
def jsGet : List (String × JSVal) → String → JSVal
  | [], _ => JSVal.undef
  | (k, v) :: rest, q => if k = q then v else jsGet rest q

/-- The type-tagged value encoding used inside `stableKey`
(`date.ts` lines 54-59). -/
def encodeVal : JSVal → String
  | JSVal.undef => "u"
  | JSVal.null => "n"
  | JSVal.str s => "s:" ++ s
  | JSVal.num v => "d:" ++ intStr v
  | JSVal.bool b => "b:" ++ (if b then "1" else "0")
  | JSVal.obj j => "o:" ++ j

/-- Lexicographic comparison of character lists by code point, the order
`Array.prototype.sort` applies to strings. -/
def charsLe : List Char → List Char → Bool
  | [], _ => true
  | _ :: _, [] => false
  | a :: as, b :: bs =>
    if a.toNat < b.toNat then true
    else if b.toNat < a.toNat then false
    else charsLe as bs

/-- JavaScript default string comparison, as a Boolean relation. -/
def jsStrLe (a b : String) : Bool := charsLe a.data b.data

/-- `stableKey` from `date.ts`: sort the property names, then append
`name=` + tagged value + `;` for each name in sorted order.  The sort of
`Object.keys(obj).sort()` is modelled by `List.insertionSort` under the
default JavaScript string order `jsStrLe`. -/
def stableKey (obj : List (String × JSVal)) : String :=
  let keys := List.insertionSort (fun a b => jsStrLe a b = true) (obj.map Prod.fst)
  keys.foldl (fun out k => out ++ k ++ "=" ++ encodeVal (jsGet obj k) ++ ";") ""

/-- The sorted property-name list used by `stableKey`. -/
def sortedNames (obj : List (String × JSVal)) : List String :=
  List.insertionSort (fun a b => jsStrLe a b = true) (obj.map Prod.fst)

/-- The character stream `stableKey` emits for a given name list:
`name`, `=`, tagged value, `;`, repeated. -/
def entsChars (l : List (String × JSVal)) : List String → List Char
  | [] => []
  | k :: ks => k.data ++ '=' :: ((encodeVal (jsGet l k)).data ++ ';' :: entsChars l ks)

/-- Evaluation of a most-significant-first decimal digit string. -/
def chEval (cs : List Char) : Nat := cs.foldl (fun a c => a * 10 + (c.toNat - 48)) 0

/-- The encoded payload of the value contains no `;` field separator.
Only string-carrying values can violate this. -/
def delimFreeVal : JSVal → Prop
  | JSVal.str s => ';' ∉ s.data
  | JSVal.obj j => ';' ∉ j.data
  | _ => True

instance : DecidablePred delimFreeVal := fun v =>
  match v with
  | JSVal.undef => inferInstanceAs (Decidable True)
  | JSVal.null => inferInstanceAs (Decidable True)
  | JSVal.str s => inferInstanceAs (Decidable (';' ∉ s.data))
  | JSVal.num _ => inferInstanceAs (Decidable True)
  | JSVal.bool _ => inferInstanceAs (Decidable True)
  | JSVal.obj j => inferInstanceAs (Decidable (';' ∉ j.data))

/-- The property name contains neither the `;` field separator nor the
`=` name/value separator. -/
def goodKeyName (k : String) : Prop := ';' ∉ k.data ∧ '=' ∉ k.data

/-- A delimiter-safe field map: no duplicate names, no delimiter
characters inside names, no `;` inside string or composite payloads. -/
def goodObj (l : List (String × JSVal)) : Prop :=
  (l.map Prod.fst).Nodup ∧ ∀ kv ∈ l, goodKeyName kv.1 ∧ delimFreeVal kv.2

instance (k : String) : Decidable (goodKeyName k) :=
  inferInstanceAs (Decidable (_ ∧ _))

instance (l : List (String × JSVal)) : Decidable (goodObj l) :=
  inferInstanceAs (Decidable (_ ∧ _))

/-- Polymorphic `Map.get`: the value of the first entry with the given
key, scanning in insertion order. -/
def mapGet {β : Type} : List (String × β) → String → Option β
  | [], _ => none
  | (k, v) :: rest, q => if k = q then some v else mapGet rest q

/-- One step of an object-literal spread: set property `k` to `v`,
overwriting in place when present, appending otherwise. -/
def objSet : List (String × JSVal) → String → JSVal → List (String × JSVal)
  | [], k, v => [(k, v)]
  | (k0, v0) :: rest, k, v =>
    if k0 = k then (k0, v) :: rest else (k0, v0) :: objSet rest k v

/-- Object spread `{ ...base, ...ext }`. -/
def objSpread (base ext : List (String × JSVal)) : List (String × JSVal) :=
  ext.foldl (fun acc kv => objSet acc kv.1 kv.2) base

/-- A possibly-undefined JavaScript string value. -/
def jsOfOptStr : Option String → JSVal
  | some s => JSVal.str s
  | none => JSVal.undef

/-- The cache-key object `{ locale, timeZone, ...opts }` built inside
`getDtf` (`date.ts` line 66). -/
def dtfKeyObj (locale : String) (timeZone : Option String)
    (opts : List (String × JSVal)) : List (String × JSVal) :=
  objSpread [("locale", JSVal.str locale), ("timeZone", jsOfOptStr timeZone)] opts

/-- State of the `_dtfCache` map from `date.ts`, plus an allocation
counter for the opaque `new Intl.DateTimeFormat` constructor: each
construction yields a fresh instance, identified by its allocation
number. -/
structure DtfCacheState where
  cache : List (String × Nat)
  built : Nat
deriving DecidableEq, Repr

/-- `getDtf` from `date.ts` (lines 65-75): derive the stable cache key,
return the cached formatter when present, otherwise construct a fresh
formatter instance, store it, and return it. -/
def getDtf (locale : String) (timeZone : Option String)
    (opts : List (String × JSVal)) (st : DtfCacheState) : Nat × DtfCacheState :=
  let key := stableKey (dtfKeyObj locale timeZone opts)
  match mapGet st.cache key with
  | some f => (f, st)
  | none => (st.built, ⟨st.cache ++ [(key, st.built)], st.built + 1⟩)

/-- The units of `Intl.RelativeTimeFormat` used by the two relative-time
implementations. -/
inductive TimeUnit where
  | second : TimeUnit
  | minute : TimeUnit
  | hour : TimeUnit
  | day : TimeUnit
  | week : TimeUnit
  | month : TimeUnit
  | year : TimeUnit
deriving DecidableEq, Repr

/-- Position of a unit in the granularity order
second < minute < hour < day < week < month < year. -/
def unitRank : TimeUnit → Nat
  | TimeUnit.second => 0
  | TimeUnit.minute => 1
  | TimeUnit.hour => 2
  | TimeUnit.day => 3
  | TimeUnit.week => 4
  | TimeUnit.month => 5
  | TimeUnit.year => 6

/-- The millisecond constants of `date.ts` `relative` (sec, min, hour,
day, week, month = 30 days, year = 365 days) and of `index.ts`
`formatRelative` (minute, hour, day, week — the same numbers). -/
def secMs : Int := 1000

def minuteMs : Int := 60 * secMs

def hourMs : Int := 60 * minuteMs

def dayMs : Int := 24 * hourMs

def weekMs : Int := 7 * dayMs

def monthMs : Int := 30 * dayMs

def yearMs : Int := 365 * dayMs

/-- `Math.floor(a / b)` for a positive integral divisor: Euclidean
division by a positive integer is floor division. -/
def mathFloorDiv (a b : Int) : Int := a / b

/-- `Math.ceil(a / b)` for a positive integral divisor. -/
def mathCeilDiv (a b : Int) : Int := -((-a) / b)

/-- The rounding step of `date.ts` `relative` (line 182):
`value < 0 ? Math.ceil(value) : Math.floor(value)` for
`value = diffMs / unitMs`, i.e. truncation toward zero. -/
def truncRound (diffMs unitMs : Int) : Int :=
  if diffMs < 0 then mathCeilDiv diffMs unitMs else mathFloorDiv diffMs unitMs

/-- `Math.round(a / b)` for a positive integral divisor:
`floor(a/b + 1/2)`, halves rounding toward positive infinity. -/
def mathRoundDiv (a b : Int) : Int := (2 * a + b) / (2 * b)

/-- The unit-selection and rounding core of `relative` from `date.ts`
(lines 148-183): descending threshold chain on `absMs` over
year/month/week/day/hour/minute with `second` as default, magnitude
truncated toward zero.  The formatted string is the opaque
`rtf.format(rounded, unit)` applied to this pair. -/
def relativeCalc (diffMs : Int) : TimeUnit × Int :=
  let absMs : Int := diffMs.natAbs
  if absMs ≥ yearMs then (TimeUnit.year, truncRound diffMs yearMs)
  else if absMs ≥ monthMs then (TimeUnit.month, truncRound diffMs monthMs)
  else if absMs ≥ weekMs then (TimeUnit.week, truncRound diffMs weekMs)
  else if absMs ≥ dayMs then (TimeUnit.day, truncRound diffMs dayMs)
  else if absMs ≥ hourMs then (TimeUnit.hour, truncRound diffMs hourMs)
  else if absMs ≥ minuteMs then (TimeUnit.minute, truncRound diffMs minuteMs)
  else (TimeUnit.second, truncRound diffMs secMs)

/-- The unit-selection and rounding core of `formatRelative` from
`index.ts` (lines 58-74): ascending `<` chain over hour/day/week with
`minute` as the smallest unit, magnitude by `Math.round`.  The formatted
string is the opaque `fmt.format(·, ·)` applied to this pair. -/
def formatRelativeCalc (diffMs : Int) : TimeUnit × Int :=
  let abs : Int := diffMs.natAbs
  if abs < hourMs then (TimeUnit.minute, mathRoundDiv diffMs minuteMs)
  else if abs < dayMs then (TimeUnit.hour, mathRoundDiv diffMs hourMs)
  else if abs < weekMs then (TimeUnit.day, mathRoundDiv diffMs dayMs)
  else (TimeUnit.week, mathRoundDiv diffMs weekMs)

/-- The local calendar fields a `Date` exposes through `getFullYear`,
`getMonth() + 1`, `getDate`, `getHours`, `getMinutes`, `getSeconds`.
Token formatting consumes only these. -/
structure LocalFields where
  year : Int
  month : Nat
  day : Nat
  hour : Nat
  minute : Nat
  second : Nat
deriving DecidableEq, Repr

/-- `pad2` from both variants: two-digit zero padding. -/
def pad2 (n : Nat) : String := if n < 10 then "0" ++ natStr n else natStr n

/-- JavaScript `String.prototype.slice(-2)`: the last two characters
(or the whole string when shorter). -/
def sliceLast2 (s : String) : String := ⟨s.data.drop (s.data.length - 2)⟩

/-- The single-pass scanner of `formatTokens` from `date.ts`
(lines 87-114): one left-to-right pass of
`pattern.replace(/YYYY|YY|MM|DD|HH|mm|ss|M|D|H|m|s/g, tok => map[tok])`.
The match alternatives are tried in the regex order (longest first), a
matched token is replaced and the scan resumes after it — replacement
output is never rescanned — and unmatched characters are copied
through. -/
def scanTokens (f : LocalFields) : List Char → List Char
  | 'Y' :: 'Y' :: 'Y' :: 'Y' :: rest => (intStr f.year).data ++ scanTokens f rest
  | 'Y' :: 'Y' :: rest => (sliceLast2 (intStr f.year)).data ++ scanTokens f rest
  | 'M' :: 'M' :: rest => (pad2 f.month).data ++ scanTokens f rest
  | 'D' :: 'D' :: rest => (pad2 f.day).data ++ scanTokens f rest
  | 'H' :: 'H' :: rest => (pad2 f.hour).data ++ scanTokens f rest
  | 'm' :: 'm' :: rest => (pad2 f.minute).data ++ scanTokens f rest
  | 's' :: 's' :: rest => (pad2 f.second).data ++ scanTokens f rest
  | 'M' :: rest => (natStr f.month).data ++ scanTokens f rest
  | 'D' :: rest => (natStr f.day).data ++ scanTokens f rest
  | 'H' :: rest => (natStr f.hour).data ++ scanTokens f rest
  | 'm' :: rest => (natStr f.minute).data ++ scanTokens f rest
  | 's' :: rest => (natStr f.second).data ++ scanTokens f rest
  | c :: rest => c :: scanTokens f rest
  | [] => []

/-- `formatTokens` from `date.ts` on the local fields of an instant. -/
def formatTokens (f : LocalFields) (pattern : String) : String :=
  ⟨scanTokens f pattern.data⟩

/-- JavaScript `str.replace(/ab/g, repl)` for a two-character literal
pattern: non-overlapping left-to-right global replacement. -/
def replace2 (a b : Char) (repl : List Char) : List Char → List Char
  | x :: y :: rest =>
    if x = a ∧ y = b then repl ++ replace2 a b repl rest
    else x :: replace2 a b repl (y :: rest)
  | l => l

/-- JavaScript `str.replace(/abcd/g, repl)` for a four-character literal
pattern. -/
def replace4 (a b c d : Char) (repl : List Char) : List Char → List Char
  | x :: y :: z :: w :: rest =>
    if x = a ∧ y = b ∧ z = c ∧ w = d then repl ++ replace4 a b c d repl rest
    else x :: replace4 a b c d repl (y :: z :: w :: rest)
  | l => l

/-- `formatTokensLocal` from `index.ts` (lines 77-92): six sequential
global replacements, in source order YYYY, MM, DD, HH, mm, ss. -/
def formatTokensLocal (f : LocalFields) (pattern : String) : String :=
  ⟨replace2 's' 's' (pad2 f.second).data
    (replace2 'm' 'm' (pad2 f.minute).data
      (replace2 'H' 'H' (pad2 f.hour).data
        (replace2 'D' 'D' (pad2 f.day).data
          (replace2 'M' 'M' (pad2 f.month).data
            (replace4 'Y' 'Y' 'Y' 'Y' (intStr f.year).data pattern.data)))))⟩

/-- The characters that can start a token in either variant. -/
def tokenChars : List Char := ['Y', 'M', 'D', 'H', 'm', 's']

/-- Generic association lookup for non-string keys. -/
def assocGet {α β : Type} [DecidableEq α] : List (α × β) → α → Option β
  | [], _ => none
  | (k, v) :: rest, q => if k = q then some v else assocGet rest q

/-- `opts.k` read as an optional string (absent or non-string values
read as `undefined`). -/
def optStrField (opts : List (String × JSVal)) (k : String) : Option String :=
  match mapGet opts k with
  | some (JSVal.str s) => some s
  | _ => none

/-- Construction parameters of an `Intl.DateTimeFormat` instance: a
constructed formatter is determined by (and modelled as) the pair of its
`locale` and options-object arguments. -/
abbrev DtfFmt : Type := Option String × List (String × JSVal)

/-- The `JSON.stringify([locale ?? null, timeZone ?? null, opts])` cache
key of `dtf` in `index.ts`, modelled as the triple itself
(`JSON.stringify` is injective on these normalized triples). -/
abbrev DtfKeyC : Type := Option String × Option String × List (String × JSVal)

/-- Construction parameters of an `Intl.RelativeTimeFormat` instance:
locale and numeric mode. -/
abbrev RtfFmt : Type := Option String × String

/-- `dtf` from `index.ts` (lines 23-30): look the key up in the cache,
construct `new Intl.DateTimeFormat(locale, { ...opts, timeZone })` on a
miss and store it. -/
def dtf (locale timeZone : Option String) (opts : List (String × JSVal))
    (cache : List (DtfKeyC × DtfFmt)) : DtfFmt × List (DtfKeyC × DtfFmt) :=
  let key : DtfKeyC := (locale, timeZone, opts)
  match assocGet cache key with
  | some hit => (hit, cache)
  | none =>
    let fmt : DtfFmt := (locale, objSet opts "timeZone" (jsOfOptStr timeZone))
    (fmt, cache ++ [(key, fmt)])

/-- `rtf` from `index.ts` (lines 32-39). -/
def rtf (locale : Option String) (numeric : String)
    (cache : List ((Option String × String) × RtfFmt)) :
    RtfFmt × List ((Option String × String) × RtfFmt) :=
  let key := (locale, numeric)
  match assocGet cache key with
  | some hit => (hit, cache)
  | none =>
    let fmt : RtfFmt := (locale, numeric)
    (fmt, cache ++ [(key, fmt)])

/-- The two module-level caches of `index.ts`. -/
structure Caches where
  dtfCache : List (DtfKeyC × DtfFmt)
  rtfCache : List ((Option String × String) × RtfFmt)

/-- `formatPreset` from `index.ts` (lines 41-56): preset defaults merged
under the caller's options (caller wins), formatted through the cached
formatter.  The host `Intl.DateTimeFormat.prototype.format` is the
opaque `renderD`. -/
def formatPreset (renderD : DtfFmt → Int → String) (d : Int) (preset : String)
    (opts : List (String × JSVal)) (cache : List (DtfKeyC × DtfFmt)) :
    String × List (DtfKeyC × DtfFmt) :=
  if preset = "date" then
    let r := dtf (optStrField opts "locale") (optStrField opts "timeZone")
      (objSpread [("year", JSVal.str "numeric"), ("month", JSVal.str "short"),
        ("day", JSVal.str "2-digit")] opts) cache
    (renderD r.1 d, r.2)
  else if preset = "time" then
    let r := dtf (optStrField opts "locale") (optStrField opts "timeZone")
      (objSpread [("hour", JSVal.str "2-digit"), ("minute", JSVal.str "2-digit")] opts) cache
    (renderD r.1 d, r.2)
  else
    let r := dtf (optStrField opts "locale") (optStrField opts "timeZone")
      (objSpread [("year", JSVal.str "numeric"), ("month", JSVal.str "short"),
        ("day", JSVal.str "2-digit"), ("hour", JSVal.str "2-digit"),
        ("minute", JSVal.str "2-digit")] opts) cache
    (renderD r.1 d, r.2)

/-- `formatRelative` from `index.ts` (lines 58-74): difference from the
ambient clock `nowMs`, cached relative formatter, unit selection and
rounding as in `formatRelativeCalc`, rendered by the opaque
`renderR`. -/
def formatRelative (renderR : RtfFmt → Int → TimeUnit → String) (nowMs d : Int)
    (opts : List (String × JSVal))
    (cache : List ((Option String × String) × RtfFmt)) :
    String × List ((Option String × String) × RtfFmt) :=
  let diffMs := d - nowMs
  let r := rtf (optStrField opts "locale") ((optStrField opts "numeric").getD "auto") cache
  let uv := formatRelativeCalc diffMs
  (renderR r.1 uv.2 uv.1, r.2)

/-- The `TOKEN_RE.test(presetOrPattern)` dispatch test of `index.ts`
(line 94): does the string contain `YYYY`, `MM`, `DD`, `HH`, `mm` or
`ss` anywhere? -/
def hasTokenRE : List Char → Bool
  | 'Y' :: 'Y' :: 'Y' :: 'Y' :: _ => true
  | 'M' :: 'M' :: _ => true
  | 'D' :: 'D' :: _ => true
  | 'H' :: 'H' :: _ => true
  | 'm' :: 'm' :: _ => true
  | 's' :: 's' :: _ => true
  | _ :: rest => hasTokenRE rest
  | [] => false

/-- `date.format` from `index.ts` (lines 97-112): validity check first,
then dispatch to relative, preset, token, or the date-preset fallback.
The already-coerced input `Date` is its millisecond time value, `none`
for an invalid date (`toDate` string parsing is the out-of-scope
collaborator); a thrown `Invalid date` error is the `Except.error`
result.  `localOf` is the host's local-timezone field decomposition. -/
def format (renderD : DtfFmt → Int → String) (renderR : RtfFmt → Int → TimeUnit → String)
    (localOf : Int → LocalFields) (nowMs : Int) (input : Option Int)
    (presetOrPattern : String) (opts : List (String × JSVal)) (st : Caches) :
    Except String String × Caches :=
  match input with
  | none => (Except.error "Invalid date", st)
  | some ms =>
    if presetOrPattern = "relative" then
      let r := formatRelative renderR nowMs ms opts st.rtfCache
      (Except.ok r.1, ⟨st.dtfCache, r.2⟩)
    else if presetOrPattern = "date" ∨ presetOrPattern = "time"
        ∨ presetOrPattern = "datetime" then
      let r := formatPreset renderD ms presetOrPattern opts st.dtfCache
      (Except.ok r.1, ⟨r.2, st.rtfCache⟩)
    else if hasTokenRE presetOrPattern.data then
      (Except.ok (formatTokensLocal (localOf ms) presetOrPattern), st)
    else
      let r := formatPreset renderD ms "date" opts st.dtfCache
      (Except.ok r.1, ⟨r.2, st.rtfCache⟩)

/-- Clamp at 3, for the exceptional last century of an era and last
year of a quadrennium. -/
def clamp3 (x : Int) : Int := if 3 < x then 3 else x

/-- Year of era (0..399) of a day of era (0..146096), by the standard
century / quadrennium / year decomposition of the 146097-day Gregorian
cycle. -/
def yoeOfDoe (doe : Int) : Int :=
  let c := clamp3 (doe / 36524)
  let doc := doe - 36524 * c
  let q := doc / 1461
  let doq := doc - 1461 * q
  let yr := clamp3 (doq / 365)
  100 * c + 4 * q + yr

/-- Day of year (0..365, March-based) of a day of era. -/
def doyOfDoe (doe : Int) : Int :=
  let c := clamp3 (doe / 36524)
  let doc := doe - 36524 * c
  let q := doc / 1461
  let doq := doc - 1461 * q
  let yr := clamp3 (doq / 365)
  doq - 365 * yr

/-- The host's proleptic Gregorian civil date (year, month 1..12, day of
month 1..31) of a day number (days since 1970-01-01): the combination of
ECMAScript `YearFromTime`, `MonthFromTime` and `DateFromTime` at day
granularity, computed in the March-shifted calendar and shifted back. -/
def civilFromDays (z0 : Int) : Int × Int × Int :=
  let z := z0 + 719468
  let era := z / 146097
  let doe := z - era * 146097
  let yoe := yoeOfDoe doe
  let doy := doyOfDoe doe
  let mp := (5 * doy + 2) / 153
  let d := doy - (153 * mp + 2) / 5 + 1
  let m := if mp < 10 then mp + 3 else mp - 9
  (if m ≤ 2 then yoe + era * 400 + 1 else yoe + era * 400, m, d)

/-- ECMAScript `MakeDay(year, month, date)` with 1-based month: the day
number of the given civil date; the day-of-month argument may lie
outside 1..31 and is normalized into the calendar, exactly as `MakeDay`
does for `setUTCDate` overflow. -/
def makeDay (y0 m d : Int) : Int :=
  let y := if m ≤ 2 then y0 - 1 else y0
  let era := y / 400
  let yoe := y - era * 400
  let mp := if 2 < m then m - 3 else m + 9
  let doy := (153 * mp + 2) / 5 + d - 1
  let doe := yoe * 365 + yoe / 4 - yoe / 100 + doy
  era * 146097 + doe - 719468

/-- ECMAScript `msPerDay`. -/
def msPerDay : Int := 86400000

/-- ECMAScript `Day(t) = floor(t / msPerDay)`. -/
def jsDay (t : Int) : Int := t / msPerDay

/-- ECMAScript `TimeWithinDay(t) = t modulo msPerDay` (nonnegative). -/
def timeWithinDay (t : Int) : Int := t % msPerDay

/-- ECMAScript `TimeClip`: time values beyond ±8.64e15 ms denote an
invalid date (NaN time value). -/
def timeClip (t : Int) : Option Int :=
  if t.natAbs ≤ 8640000000000000 then some t else none

/-- `Date.prototype.getUTCDate`: UTC day of month of a valid instant. -/
def getUTCDate (t : Int) : Int := (civilFromDays (jsDay t)).2.2

/-- `Date.prototype.setUTCDate(v)`: remake the time value from the
instant's UTC year and month with day-of-month `v`, keeping the time
within the day, clipping the result. -/
def setUTCDate (t v : Int) : Option Int :=
  timeClip ((makeDay (civilFromDays (jsDay t)).1 (civilFromDays (jsDay t)).2.1 v) * msPerDay
    + timeWithinDay t)

/-- `addDays` from `index.ts` (lines 114-120) on the time value of a
valid input: `out.setUTCDate(out.getUTCDate() + days)` on a copy. -/
def addDays (t days : Int) : Option Int := setUTCDate t (getUTCDate t + days)

/-- A minimal heap of `Date` objects: a cell index is an object
identity, the contents are the `[[DateValue]]` slot (`none` = NaN). -/
structure DateStore where
  cells : List (Option Int)

/-- `new Date(v)`: allocate a fresh `Date` cell. -/
def allocDate (st : DateStore) (v : Option Int) : Nat × DateStore :=
  (st.cells.length, ⟨st.cells ++ [v]⟩)

/-- In-place mutation of a `Date` cell. -/
def setCell (st : DateStore) (r : Nat) (v : Option Int) : DateStore :=
  ⟨st.cells.set r v⟩

/-- `date.addDays` at the heap level (`index.ts` lines 114-120):
`const out = new Date(d.getTime())` allocates a fresh object, then
`out.setUTCDate(out.getUTCDate() + days)` mutates only that object, and
`out` is returned. -/
def addDaysRef (st : DateStore) (r : Nat) (days : Int) : Nat × DateStore :=
  let t := st.cells.getD r none
  let a := allocDate st t
  let v := match t with
    | some tv => addDays tv days
    | none => none
  (a.1, setCell a.2 a.1 v)

/-! ### Order properties of the modelled JavaScript string comparison -/

theorem charsLe_total (x y : List Char) : charsLe x y = true ∨ charsLe y x = true := by
  induction x generalizing y with
  | nil => left; rfl
  | cons a as ih =>
    cases y with
    | nil => right; rfl
    | cons b bs =>
      by_cases hab : a.toNat < b.toNat
      · left; simp [charsLe, hab]
      · by_cases hba : b.toNat < a.toNat
        · right; simp [charsLe, hba]
        · rcases ih bs with h | h
          · left; simp [charsLe, hab, hba, h]
          · right; simp [charsLe, hab, hba, h]

theorem charsLe_antisymm (x y : List Char) (hxy : charsLe x y = true)
    (hyx : charsLe y x = true) : x = y := by
  induction x generalizing y with
  | nil =>
    cases y with
    | nil => rfl
    | cons b bs => simp [charsLe] at hyx
  | cons a as ih =>
    cases y with
    | nil => simp [charsLe] at hxy
    | cons b bs =>
      by_cases hab : a.toNat < b.toNat
      · simp [charsLe, hab, Nat.not_lt_of_lt hab] at hyx
      · by_cases hba : b.toNat < a.toNat
        · simp [charsLe, hab, hba] at hxy
        · have hc : a = b := Char.ext (UInt32.toNat.inj (show a.toNat = b.toNat by omega))
          subst hc
          simp [charsLe, hab] at hxy hyx
          exact congrArg (a :: ·) (ih bs hxy hyx)

theorem charsLe_trans (x y z : List Char) (hxy : charsLe x y = true)
    (hyz : charsLe y z = true) : charsLe x z = true := by
  induction x generalizing y z with
  | nil => rfl
  | cons a as ih =>
    cases y with
    | nil => simp [charsLe] at hxy
    | cons b bs =>
      cases z with
      | nil => simp [charsLe] at hyz
      | cons c cs =>
        simp only [charsLe] at hxy hyz ⊢
        by_cases hab : a.toNat < b.toNat
        · by_cases hba : b.toNat < a.toNat
          · omega
          · by_cases hbc : b.toNat < c.toNat
            · have hac : a.toNat < c.toNat := by omega
              simp [hac]
            · by_cases hcb : c.toNat < b.toNat
              · simp [hbc, hcb] at hyz
              · have hac : a.toNat < c.toNat := by omega
                simp [hac]
        · by_cases hba : b.toNat < a.toNat
          · simp [hab, hba] at hxy
          · by_cases hbc : b.toNat < c.toNat
            · have hac : a.toNat < c.toNat := by omega
              simp [hac]
            · by_cases hcb : c.toNat < b.toNat
              · simp [hbc, hcb] at hyz
              · have h5 : ¬ a.toNat < c.toNat := by omega
                have h6 : ¬ c.toNat < a.toNat := by omega
                simp [hab, hba] at hxy
                simp [hbc, hcb] at hyz
                simp [h5, h6]
                exact ih bs cs hxy hyz

instance : IsTotal String (fun a b => jsStrLe a b = true) :=
  ⟨fun a b => charsLe_total a.data b.data⟩

instance : IsTrans String (fun a b => jsStrLe a b = true) :=
  ⟨fun a b c => charsLe_trans a.data b.data c.data⟩

instance : IsAntisymm String (fun a b => jsStrLe a b = true) :=
  ⟨fun a b h1 h2 => String.ext (charsLe_antisymm a.data b.data h1 h2)⟩

/-! ### Association-list lookup under permutation -/

theorem jsGet_eq_some_iff_mem (l : List (String × JSVal)) (k : String) (v : JSVal)
    (hnd : (l.map Prod.fst).Nodup) (hk : k ∈ l.map Prod.fst) :
    jsGet l k = v ↔ (k, v) ∈ l := by
  induction l with
  | nil => simp at hk
  | cons a t ih =>
    obtain ⟨ka, va⟩ := a
    simp only [List.map_cons, List.nodup_cons] at hnd
    by_cases hka : ka = k
    · subst hka
      simp only [jsGet, if_pos rfl, List.mem_cons]
      constructor
      · rintro rfl; left; rfl
      · rintro (h | h)
        · exact (Prod.mk.injEq .. ▸ h).2.symm
        · exact absurd (List.mem_map_of_mem Prod.fst h) hnd.1
    · have hk2 : k ∈ t.map Prod.fst := by
        simp only [List.map_cons, List.mem_cons] at hk
        exact hk.resolve_left (fun h => hka h.symm)
      simp only [jsGet, if_neg hka, List.mem_cons]
      rw [ih hnd.2 hk2]
      constructor
      · exact Or.inr
      · rintro (h | h)
        · exact absurd (congrArg Prod.fst h).symm hka
        · exact h

theorem jsGet_eq_undef_of_not_mem (l : List (String × JSVal)) (k : String)
    (hk : k ∉ l.map Prod.fst) : jsGet l k = JSVal.undef := by
  induction l with
  | nil => rfl
  | cons a t ih =>
    obtain ⟨ka, va⟩ := a
    simp only [List.map_cons, List.mem_cons, not_or] at hk
    have hne : ¬ ka = k := fun h => hk.1 h.symm
    simp only [jsGet, if_neg hne]
    exact ih hk.2

theorem jsGet_eq_of_perm (l1 l2 : List (String × JSVal))
    (hnd : (l1.map Prod.fst).Nodup) (hp : l1.Perm l2) (k : String) :
    jsGet l1 k = jsGet l2 k := by
  have hnd2 : (l2.map Prod.fst).Nodup := ((hp.map Prod.fst).nodup_iff).mp hnd
  by_cases hk : k ∈ l1.map Prod.fst
  · have hk2 : k ∈ l2.map Prod.fst := (hp.map Prod.fst).mem_iff.mp hk
    have h1 := (jsGet_eq_some_iff_mem l1 k (jsGet l1 k) hnd hk).mp rfl
    exact ((jsGet_eq_some_iff_mem l2 k (jsGet l1 k) hnd2 hk2).mpr (hp.mem_iff.mp h1)).symm
  · have hk2 : k ∉ l2.map Prod.fst := fun h => hk ((hp.map Prod.fst).mem_iff.mpr h)
    rw [jsGet_eq_undef_of_not_mem l1 k hk, jsGet_eq_undef_of_not_mem l2 k hk2]

theorem foldl_congr_of_mem {α β : Type} (ks : List α) (f g : β → α → β)
    (h : ∀ k ∈ ks, ∀ s, f s k = g s k) (init : β) :
    ks.foldl f init = ks.foldl g init := by
  induction ks generalizing init with
  | nil => rfl
  | cons a t ih =>
    simp only [List.foldl_cons]
    rw [h a (List.mem_cons_self a t) init]
    exact ih (fun k hk s => h k (List.mem_cons_of_mem a hk) s) (g init a)

/-- C1: `stableKey` is independent of the order in which fields were
supplied: any two field maps (association lists with no duplicate names)
holding exactly the same (name, value) pairs serialize identically. -/
theorem stableKey_order_independent (l1 l2 : List (String × JSVal))
    (hnd : (l1.map Prod.fst).Nodup) (hp : l1.Perm l2) :
    stableKey l1 = stableKey l2 := by
  unfold stableKey
  have hkeys : List.insertionSort (fun a b => jsStrLe a b = true) (l1.map Prod.fst)
      = List.insertionSort (fun a b => jsStrLe a b = true) (l2.map Prod.fst) := by
    apply List.eq_of_perm_of_sorted (r := fun a b => jsStrLe a b = true)
      (((List.perm_insertionSort _ _).trans (hp.map Prod.fst)).trans
        (List.perm_insertionSort _ _).symm)
    · exact List.sorted_insertionSort _ _
    · exact List.sorted_insertionSort _ _
  rw [hkeys]
  exact foldl_congr_of_mem _ _ _
    (fun k _ s => by rw [jsGet_eq_of_perm l1 l2 hnd hp k]) ""

/-- Witness for C1 at a concrete pair of permuted field maps. -/
theorem stableKey_order_independent_witness :
    (([("b", JSVal.num 1), ("a", JSVal.str "x")].map Prod.fst).Nodup
      ∧ List.Perm [("b", JSVal.num 1), ("a", JSVal.str "x")]
          [("a", JSVal.str "x"), ("b", JSVal.num 1)])
    ∧ stableKey [("b", JSVal.num 1), ("a", JSVal.str "x")]
      = stableKey [("a", JSVal.str "x"), ("b", JSVal.num 1)] :=
  ⟨⟨by decide, by decide⟩,
    stableKey_order_independent _ _ (by decide) (by decide)⟩

/-! ### Decimal digit strings: evaluation, character class, injectivity -/

theorem chEval_append_digit (l : List Char) (c : Char) :
    chEval (l ++ [c]) = chEval l * 10 + (c.toNat - 48) := by
  simp [chEval, List.foldl_append]

theorem natDigitsAux_eval (f : Nat) : ∀ n : Nat, n ≤ f → chEval (natDigitsAux f n) = n := by
  induction f with
  | zero => intro n h; interval_cases n; rfl
  | succ f ih =>
    intro n h
    by_cases h0 : n = 0
    · subst h0; simp [natDigitsAux, chEval]
    · have h1 : n / 10 ≤ f := by omega
      have h2 : n % 10 < 10 := Nat.mod_lt _ (by omega)
      have h3 : ∀ d : Nat, d < 10 → (Nat.digitChar d).toNat - 48 = d := by decide
      simp only [natDigitsAux, if_neg h0]
      rw [chEval_append_digit, ih _ h1, h3 _ h2]
      omega

theorem natDigitsAux_chars (f : Nat) : ∀ n : Nat, ∀ c ∈ natDigitsAux f n,
    48 ≤ c.toNat ∧ c.toNat ≤ 57 := by
  induction f with
  | zero => intro n c hc; simp [natDigitsAux] at hc
  | succ f ih =>
    intro n c hc
    by_cases h0 : n = 0
    · subst h0; simp [natDigitsAux] at hc
    · simp only [natDigitsAux, if_neg h0, List.mem_append, List.mem_singleton] at hc
      rcases hc with hc | hc
      · exact ih _ c hc
      · subst hc
        have h2 : n % 10 < 10 := Nat.mod_lt _ (by omega)
        have h3 : ∀ d : Nat, d < 10 →
            48 ≤ (Nat.digitChar d).toNat ∧ (Nat.digitChar d).toNat ≤ 57 := by decide
        exact h3 _ h2

theorem natStr_chars (n : Nat) : ∀ c ∈ (natStr n).data, 48 ≤ c.toNat ∧ c.toNat ≤ 57 := by
  intro c hc
  unfold natStr at hc
  by_cases h0 : n = 0
  · simp [h0] at hc
    subst hc; decide
  · simp only [if_neg h0] at hc
    exact natDigitsAux_chars n n c hc

theorem natStr_inj (a b : Nat) (h : natStr a = natStr b) : a = b := by
  have hd : (natStr a).data = (natStr b).data := congrArg String.data h
  unfold natStr at hd
  by_cases ha : a = 0 <;> by_cases hb : b = 0
  · omega
  · exfalso
    simp only [if_pos ha, if_neg hb] at hd
    have h1 : ['0'] = natDigitsAux b b := hd
    have h2 := natDigitsAux_eval b b le_rfl
    rw [← h1] at h2
    have h0 : chEval ['0'] = 0 := by decide
    omega
  · exfalso
    simp only [if_neg ha, if_pos hb] at hd
    have h1 : natDigitsAux a a = ['0'] := hd
    have h2 := natDigitsAux_eval a a le_rfl
    rw [h1] at h2
    have h0 : chEval ['0'] = 0 := by decide
    omega
  · simp only [if_neg ha, if_neg hb] at hd
    have h1 := natDigitsAux_eval a a le_rfl
    have h2 := natDigitsAux_eval b b le_rfl
    rw [hd] at h1
    omega

theorem intStr_chars (v : Int) : ∀ c ∈ (intStr v).data,
    c.toNat = 45 ∨ (48 ≤ c.toNat ∧ c.toNat ≤ 57) := by
  intro c hc
  unfold intStr at hc
  by_cases hv : v < 0
  · simp only [if_pos hv, String.data_append] at hc
    rcases List.mem_append.mp hc with hc | hc
    · left
      have : c = '-' := by simpa using hc
      subst this; rfl
    · right; exact natStr_chars _ c hc
  · simp only [if_neg hv] at hc
    right; exact natStr_chars _ c hc

theorem intStr_inj (a b : Int) (h : intStr a = intStr b) : a = b := by
  have hd : (intStr a).data = (intStr b).data := congrArg String.data h
  unfold intStr at hd
  by_cases ha : a < 0 <;> by_cases hb : b < 0
  · simp only [if_pos ha, if_pos hb, String.data_append] at hd
    have := natStr_inj a.natAbs b.natAbs (String.ext (List.append_cancel_left hd))
    omega
  · exfalso
    simp only [if_pos ha, if_neg hb, String.data_append] at hd
    have hh : '-' ∈ (natStr b.natAbs).data := by
      rw [← hd]; simp
    have := natStr_chars b.natAbs '-' hh
    simp at this
  · exfalso
    simp only [if_neg ha, if_pos hb, String.data_append] at hd
    have hh : '-' ∈ (natStr a.natAbs).data := by
      rw [hd]; simp
    have := natStr_chars a.natAbs '-' hh
    simp at this
  · simp only [if_neg ha, if_neg hb] at hd
    have := natStr_inj a.natAbs b.natAbs (String.ext hd)
    omega

/-! ### The tagged value encoding: no separators, injective -/

theorem encodeVal_semifree (v : JSVal) (hv : delimFreeVal v) :
    ';' ∉ (encodeVal v).data := by
  cases v with
  | undef => intro h; simp [encodeVal] at h
  | null => intro h; simp [encodeVal] at h
  | str s =>
    intro h
    simp only [encodeVal, String.data_append] at h
    rcases List.mem_append.mp h with h | h
    · simp at h
    · exact hv h
  | num n =>
    intro h
    simp only [encodeVal, String.data_append] at h
    rcases List.mem_append.mp h with h | h
    · simp at h
    · have h2 : Char.toNat ';' = 59 := by decide
      rcases intStr_chars n _ h with h1 | h1 <;> omega
  | bool b =>
    intro h
    cases b <;> simp [encodeVal] at h
  | obj j =>
    intro h
    simp only [encodeVal, String.data_append] at h
    rcases List.mem_append.mp h with h | h
    · simp at h
    · exact hv h

theorem encodeVal_inj (v w : JSVal) (h : encodeVal v = encodeVal w) : v = w := by
  have hd : (encodeVal v).data = (encodeVal w).data := congrArg String.data h
  cases v <;> cases w <;>
    simp_all only [encodeVal, String.data_append] <;>
    try rfl
  all_goals try (simp_all [String.ext_iff]; done)
  · rename_i a b
    have h3 := intStr_inj a b
      (String.ext (List.append_cancel_left (congrArg String.data h)))
    simp [h3]
  · rename_i a b
    cases a <;> cases b <;> simp_all

/-! ### Delimited concatenation is injective -/

theorem append_sep_inj (sep : Char) : ∀ (a1 a2 t1 t2 : List Char), sep ∉ a1 → sep ∉ a2 →
    a1 ++ sep :: t1 = a2 ++ sep :: t2 → a1 = a2 ∧ t1 = t2 := by
  intro a1
  induction a1 with
  | nil =>
    intro a2 t1 t2 _ ha2 h
    cases a2 with
    | nil => simpa using h
    | cons c cs =>
      exfalso
      simp only [List.nil_append, List.cons_append, List.cons.injEq] at h
      exact ha2 (h.1 ▸ List.mem_cons_self c cs)
  | cons c cs ih =>
    intro a2 t1 t2 ha1 ha2 h
    cases a2 with
    | nil =>
      exfalso
      simp only [List.nil_append, List.cons_append, List.cons.injEq] at h
      exact ha1 (h.1 ▸ List.mem_cons_self c cs)
    | cons d ds =>
      simp only [List.cons_append, List.cons.injEq] at h
      obtain ⟨rfl, h2⟩ := h
      have := ih ds t1 t2 (fun hm => ha1 (List.mem_cons_of_mem c hm))
        (fun hm => ha2 (List.mem_cons_of_mem c hm)) h2
      exact ⟨by rw [this.1], this.2⟩

theorem entsChars_inj : ∀ (ks1 ks2 : List String) (l1 l2 : List (String × JSVal)),
    (∀ k ∈ ks1, ';' ∉ k.data ∧ '=' ∉ k.data ∧ ';' ∉ (encodeVal (jsGet l1 k)).data) →
    (∀ k ∈ ks2, ';' ∉ k.data ∧ '=' ∉ k.data ∧ ';' ∉ (encodeVal (jsGet l2 k)).data) →
    entsChars l1 ks1 = entsChars l2 ks2 →
    ks1 = ks2 ∧ ∀ k ∈ ks1, encodeVal (jsGet l1 k) = encodeVal (jsGet l2 k) := by
  intro ks1
  induction ks1 with
  | nil =>
    intro ks2 l1 l2 _ _ h
    cases ks2 with
    | nil => exact ⟨rfl, by simp⟩
    | cons k ks =>
      exfalso
      simp only [entsChars] at h
      cases hk : k.data with
      | nil => rw [hk] at h; simp at h
      | cons c cs => rw [hk] at h; simp at h
  | cons k1 ks1 ih =>
    intro ks2 l1 l2 hg1 hg2 h
    cases ks2 with
    | nil =>
      exfalso
      simp only [entsChars] at h
      cases hk : k1.data with
      | nil => rw [hk] at h; simp at h
      | cons c cs => rw [hk] at h; simp at h
    | cons k2 ks2 =>
      simp only [entsChars] at h
      have g1 := hg1 k1 (List.mem_cons_self _ _)
      have g2 := hg2 k2 (List.mem_cons_self _ _)
      obtain ⟨hkeq, hrest⟩ := append_sep_inj '=' k1.data k2.data _ _ g1.2.1 g2.2.1 h
      have hk12 : k1 = k2 := String.ext hkeq
      obtain ⟨henc, htail⟩ := append_sep_inj ';' _ _ _ _ g1.2.2
        (hk12 ▸ g2.2.2) hrest
      have ihr := ih ks2 l1 l2
        (fun k hk => hg1 k (List.mem_cons_of_mem _ hk))
        (fun k hk => hg2 k (List.mem_cons_of_mem _ hk)) htail
      refine ⟨by rw [hk12, ihr.1], ?_⟩
      intro k hk
      rcases List.mem_cons.mp hk with rfl | hk
      · rw [hk12]
        exact String.ext (hk12 ▸ henc)
      · exact ihr.2 k hk

theorem stableKey_foldl (l : List (String × JSVal)) :
    ∀ (ks : List String) (init : String),
    (ks.foldl (fun out k => out ++ k ++ "=" ++ encodeVal (jsGet l k) ++ ";") init).data
      = init.data ++ entsChars l ks := by
  intro ks
  induction ks with
  | nil => intro init; simp [entsChars]
  | cons k ks ih =>
    intro init
    simp only [List.foldl_cons, entsChars, ih, String.data_append]
    simp

theorem stableKey_data (l : List (String × JSVal)) :
    (stableKey l).data = entsChars l (sortedNames l) := by
  unfold stableKey sortedNames
  rw [stableKey_foldl]
  rfl

/-- C2 counterexample: `stableKey` is not injective on arbitrary field
maps.  A string value containing the delimiter characters forges the
serialization of an additional field: a one-field map collides with a
two-field map that has a different field set (`"b"` present vs absent). -/
theorem stableKey_collision :
    stableKey [("a", JSVal.str "x;b=s:y")]
      = stableKey [("a", JSVal.str "x"), ("b", JSVal.str "y")]
    ∧ jsGet [("a", JSVal.str "x;b=s:y")] "b" = JSVal.undef
    ∧ jsGet [("a", JSVal.str "x"), ("b", JSVal.str "y")] "b" = JSVal.str "y"
    ∧ ¬ List.Perm [("a", JSVal.str "x;b=s:y")]
        [("a", JSVal.str "x"), ("b", JSVal.str "y")] := by
  refine ⟨?_, rfl, rfl, by decide⟩
  decide

/-- C2 (amended): on delimiter-safe field maps — no duplicate names,
no `;` or `=` inside names, no `;` inside string/composite payloads —
`stableKey` is injective: equal keys force the same field multiset.
The delimiter restriction is exactly the proviso the spec itself states
("as long as the delimiter cannot appear in key or value content") and is
forced by the counterexample `stableKey_collision`. -/
theorem stableKey_injective_on_good (l1 l2 : List (String × JSVal))
    (h1 : goodObj l1) (h2 : goodObj l2)
    (heq : stableKey l1 = stableKey l2) : l1.Perm l2 := by
  have hd := congrArg String.data heq
  rw [stableKey_data, stableKey_data] at hd
  have hmem1 : ∀ k ∈ sortedNames l1, k ∈ l1.map Prod.fst := fun k hk =>
    (List.perm_insertionSort _ _).mem_iff.mp hk
  have hmem2 : ∀ k ∈ sortedNames l2, k ∈ l2.map Prod.fst := fun k hk =>
    (List.perm_insertionSort _ _).mem_iff.mp hk
  have hpair : ∀ (l : List (String × JSVal)), goodObj l → ∀ k ∈ l.map Prod.fst,
      ';' ∉ k.data ∧ '=' ∉ k.data ∧ ';' ∉ (encodeVal (jsGet l k)).data := by
    intro l hl k hk
    have hv := (jsGet_eq_some_iff_mem l k (jsGet l k) hl.1 hk).mp rfl
    have := hl.2 _ hv
    exact ⟨this.1.1, this.1.2, encodeVal_semifree _ this.2⟩
  obtain ⟨hnames, henc⟩ := entsChars_inj (sortedNames l1) (sortedNames l2) l1 l2
    (fun k hk => hpair l1 h1 k (hmem1 k hk))
    (fun k hk => hpair l2 h2 k (hmem2 k hk)) hd
  have hset : ∀ k : String, k ∈ l1.map Prod.fst ↔ k ∈ l2.map Prod.fst := by
    intro k
    rw [← (List.perm_insertionSort (fun a b => jsStrLe a b = true) (l1.map Prod.fst)).mem_iff,
      ← (List.perm_insertionSort (fun a b => jsStrLe a b = true) (l2.map Prod.fst)).mem_iff]
    show k ∈ sortedNames l1 ↔ k ∈ sortedNames l2
    rw [hnames]
  have hget : ∀ k ∈ l1.map Prod.fst, jsGet l1 k = jsGet l2 k := by
    intro k hk
    have hk1 : k ∈ sortedNames l1 :=
      (List.perm_insertionSort (fun a b => jsStrLe a b = true) (l1.map Prod.fst)).symm.mem_iff.mp hk
    exact encodeVal_inj _ _ (henc k hk1)
  rw [List.perm_ext_iff_of_nodup (List.Nodup.of_map _ h1.1) (List.Nodup.of_map _ h2.1)]
  intro kv
  obtain ⟨k, v⟩ := kv
  constructor
  · intro hkv
    have hk1 : k ∈ l1.map Prod.fst := List.mem_map_of_mem Prod.fst hkv
    have hk2 : k ∈ l2.map Prod.fst := (hset k).mp hk1
    have hv1 : jsGet l1 k = v := (jsGet_eq_some_iff_mem l1 k v h1.1 hk1).mpr hkv
    exact (jsGet_eq_some_iff_mem l2 k v h2.1 hk2).mp (by rw [← hget k hk1, hv1])
  · intro hkv
    have hk2 : k ∈ l2.map Prod.fst := List.mem_map_of_mem Prod.fst hkv
    have hk1 : k ∈ l1.map Prod.fst := (hset k).mpr hk2
    have hv2 : jsGet l2 k = v := (jsGet_eq_some_iff_mem l2 k v h2.1 hk2).mpr hkv
    exact (jsGet_eq_some_iff_mem l1 k v h1.1 hk1).mp (by rw [hget k hk1, hv2])

/-- Witness for the amended C2 at concrete delimiter-safe field maps. -/
theorem stableKey_injective_on_good_witness :
    (goodObj [("a", JSVal.num 1)] ∧ goodObj [("a", JSVal.num 1), ("b", JSVal.null)]
      ∧ stableKey [("a", JSVal.num 1)] ≠ stableKey [("a", JSVal.num 1), ("b", JSVal.null)])
    ∧ (stableKey [("a", JSVal.num 1), ("b", JSVal.null)]
        = stableKey [("b", JSVal.null), ("a", JSVal.num 1)]
      → List.Perm [("a", JSVal.num 1), ("b", JSVal.null)]
          [("b", JSVal.null), ("a", JSVal.num 1)]) :=
  ⟨⟨by decide, by decide, by decide⟩,
    stableKey_injective_on_good _ _ (by decide) (by decide)⟩

/-! ### The formatter cache builds each entry at most once -/

theorem mapGet_append_single {β : Type} (l : List (String × β)) (k : String) (v : β)
    (h : mapGet l k = none) : mapGet (l ++ [(k, v)]) k = some v := by
  induction l with
  | nil => simp [mapGet]
  | cons a t ih =>
    obtain ⟨ka, va⟩ := a
    simp only [mapGet] at h ⊢
    by_cases hk : ka = k
    · simp [hk] at h
    · simp only [if_neg hk] at h ⊢
      exact ih h

/-- C3: after a first `getDtf` call, a second call whose options
serialize to the same stable key returns the instance built by the first
call and leaves the cache state — in particular the construction
counter — unchanged: the expensive constructor runs at most once per
key. -/
theorem getDtf_single_construction (locale : String) (timeZone : Option String)
    (opts : List (String × JSVal)) (locale2 : String) (timeZone2 : Option String)
    (opts2 : List (String × JSVal)) (st0 : DtfCacheState)
    (hkey : stableKey (dtfKeyObj locale2 timeZone2 opts2)
      = stableKey (dtfKeyObj locale timeZone opts)) :
    getDtf locale2 timeZone2 opts2 (getDtf locale timeZone opts st0).2
      = ((getDtf locale timeZone opts st0).1, (getDtf locale timeZone opts st0).2)
    ∧ (getDtf locale2 timeZone2 opts2 (getDtf locale timeZone opts st0).2).2.built
      = (getDtf locale timeZone opts st0).2.built := by
  have hmain : getDtf locale2 timeZone2 opts2 (getDtf locale timeZone opts st0).2
      = ((getDtf locale timeZone opts st0).1, (getDtf locale timeZone opts st0).2) := by
    simp only [getDtf, hkey]
    cases h : mapGet st0.cache (stableKey (dtfKeyObj locale timeZone opts)) with
    | some f => simp [h]
    | none => simp [h, mapGet_append_single _ _ _ h]
  exact ⟨hmain, by rw [hmain]⟩

/-- Witness for C3: two identical `getDtf` calls on an empty cache. -/
theorem getDtf_single_construction_witness :
    stableKey (dtfKeyObj "en-US" none []) = stableKey (dtfKeyObj "en-US" none [])
    ∧ (getDtf "en-US" none [] (getDtf "en-US" none [] ⟨[], 0⟩).2
        = ((getDtf "en-US" none [] ⟨[], 0⟩).1, (getDtf "en-US" none [] ⟨[], 0⟩).2)
      ∧ (getDtf "en-US" none [] (getDtf "en-US" none [] ⟨[], 0⟩).2).2.built
        = (getDtf "en-US" none [] ⟨[], 0⟩).2.built) :=
  ⟨rfl, getDtf_single_construction "en-US" none [] "en-US" none [] ⟨[], 0⟩ rfl⟩

/-! ### Relative-time unit selection -/

set_option maxHeartbeats 3000000 in
/-- C4: in both implementations the selected unit is monotone in the
absolute elapsed difference, in the granularity order
second < minute < hour < day < week < month < year. -/
theorem relative_unit_monotone (d1 d2 : Int) (h : d1.natAbs ≤ d2.natAbs) :
    unitRank (relativeCalc d1).1 ≤ unitRank (relativeCalc d2).1
    ∧ unitRank (formatRelativeCalc d1).1 ≤ unitRank (formatRelativeCalc d2).1 := by
  constructor
  · simp only [relativeCalc, yearMs, monthMs, weekMs, dayMs, hourMs, minuteMs, secMs]
    split_ifs <;> simp [unitRank] <;> omega
  · simp only [formatRelativeCalc, weekMs, dayMs, hourMs, minuteMs, secMs]
    split_ifs <;> simp [unitRank] <;> omega

/-- Witness for C4 across the minute/hour boundary. -/
theorem relative_unit_monotone_witness :
    Int.natAbs 59000 ≤ Int.natAbs 3660000
    ∧ (unitRank (relativeCalc 59000).1 ≤ unitRank (relativeCalc 3660000).1
      ∧ unitRank (formatRelativeCalc 59000).1 ≤ unitRank (formatRelativeCalc 3660000).1) :=
  ⟨by decide, relative_unit_monotone 59000 3660000 (by decide)⟩

/-- C5 counterexample: at a difference of exactly +90 000 ms the
extended variant (`relative` in `date.ts`) selects the minute unit but
passes magnitude 1 — not 2 — to the relative formatter, because it
truncates 1.5 toward zero. -/
theorem relative_90s_magnitude_not_two :
    (relativeCalc 90000).1 = TimeUnit.minute ∧ (relativeCalc 90000).2 ≠ 2 := by
  decide

/-- C5 (amended): at +90 000 ms both variants select the minute unit;
the magnitude is 2 under `formatRelative` of `index.ts` (`Math.round`)
and 1 under `relative` of `date.ts` (truncation toward zero). -/
theorem relative_90s_rounding :
    formatRelativeCalc 90000 = (TimeUnit.minute, 2)
    ∧ relativeCalc 90000 = (TimeUnit.minute, 1) := by
  decide

/-! ### Token formatting -/

theorem replace2_passthrough (a b : Char) (repl : List Char) (p : List Char)
    (hp : ∀ c ∈ p, c ≠ a) : replace2 a b repl p = p := by
  induction p using replace2.induct a b repl with
  | case1 x y rest hcond ih =>
    exact absurd hcond.1 (hp x (by simp))
  | case2 x y rest hcond ih =>
    simp only [replace2, if_neg hcond]
    rw [ih (fun c hc => hp c (List.mem_cons_of_mem x hc))]
  | case3 l hl =>
    cases l with
    | nil => rfl
    | cons x t =>
      cases t with
      | nil => rfl
      | cons y rest => exact absurd rfl (hl x y rest)

theorem replace4_passthrough (a b c d : Char) (repl : List Char) (p : List Char)
    (hp : ∀ ch ∈ p, ch ≠ a) : replace4 a b c d repl p = p := by
  induction p using replace4.induct a b c d repl with
  | case1 x y z w rest hcond ih =>
    exact absurd hcond.1 (hp x (by simp))
  | case2 x y z w rest hcond ih =>
    simp only [replace4, if_neg hcond]
    rw [ih (fun ch hc => hp ch (List.mem_cons_of_mem x hc))]
  | case3 l hl =>
    match l, hl with
    | [], _ => rfl
    | [x], _ => rfl
    | [x, y], _ => rfl
    | [x, y, z], _ => rfl
    | x :: y :: z :: w :: rest, hl => exact absurd rfl (hl x y z w rest)

theorem scanTokens_cons_of_not_token (f : LocalFields) (c : Char) (rest : List Char)
    (hc : c ∉ tokenChars) : scanTokens f (c :: rest) = c :: scanTokens f rest := by
  simp only [tokenChars, List.mem_cons, not_or] at hc
  rw [scanTokens.eq_def]
  split <;> simp_all

theorem scanTokens_passthrough (f : LocalFields) (p : List Char)
    (hp : ∀ c ∈ p, c ∉ tokenChars) : scanTokens f p = p := by
  induction p with
  | nil => rfl
  | cons c rest ih =>
    rw [scanTokens_cons_of_not_token f c rest (hp c (List.mem_cons_self c rest))]
    rw [ih (fun d hd => hp d (List.mem_cons_of_mem c hd))]

/-- C6: token formatting prefers the longest token in a left-to-right
scan, never re-matches substituted output, and copies unrecognized
characters through unchanged — in both variants.  Concretely, pattern
`YYYY-MM-DD` on the local instant 2025-12-27 yields `2025-12-27`,
adjacent ambiguous tokens `YYYYMM` expand to `202512` without being
mis-split, and a pattern containing no token character is returned
verbatim for every instant. -/
theorem token_formatting_longest_match (f : LocalFields) (p : String)
    (hp : ∀ c ∈ p.data, c ∉ tokenChars) :
    formatTokens ⟨2025, 12, 27, 0, 0, 0⟩ "YYYY-MM-DD" = "2025-12-27"
    ∧ formatTokensLocal ⟨2025, 12, 27, 0, 0, 0⟩ "YYYY-MM-DD" = "2025-12-27"
    ∧ formatTokens ⟨2025, 12, 27, 0, 0, 0⟩ "YYYYMM" = "202512"
    ∧ formatTokensLocal ⟨2025, 12, 27, 0, 0, 0⟩ "YYYYMM" = "202512"
    ∧ formatTokens f p = p
    ∧ formatTokensLocal f p = p := by
  have hY : ∀ c ∈ p.data, c ≠ 'Y' := fun c hc h =>
    hp c hc (h ▸ (by decide : ('Y' : Char) ∈ tokenChars))
  have hM : ∀ c ∈ p.data, c ≠ 'M' := fun c hc h =>
    hp c hc (h ▸ (by decide : ('M' : Char) ∈ tokenChars))
  have hD : ∀ c ∈ p.data, c ≠ 'D' := fun c hc h =>
    hp c hc (h ▸ (by decide : ('D' : Char) ∈ tokenChars))
  have hH : ∀ c ∈ p.data, c ≠ 'H' := fun c hc h =>
    hp c hc (h ▸ (by decide : ('H' : Char) ∈ tokenChars))
  have hm : ∀ c ∈ p.data, c ≠ 'm' := fun c hc h =>
    hp c hc (h ▸ (by decide : ('m' : Char) ∈ tokenChars))
  have hs : ∀ c ∈ p.data, c ≠ 's' := fun c hc h =>
    hp c hc (h ▸ (by decide : ('s' : Char) ∈ tokenChars))
  refine ⟨rfl, rfl, rfl, rfl, ?_, ?_⟩
  · show (⟨scanTokens f p.data⟩ : String) = p
    rw [scanTokens_passthrough f p.data hp]
  · show (⟨replace2 's' 's' _ _⟩ : String) = p
    rw [replace4_passthrough _ _ _ _ _ _ hY, replace2_passthrough _ _ _ _ hM,
      replace2_passthrough _ _ _ _ hD, replace2_passthrough _ _ _ _ hH,
      replace2_passthrough _ _ _ _ hm, replace2_passthrough _ _ _ _ hs]

/-- Witness for C6 at a concrete instant and token-free pattern. -/
theorem token_formatting_longest_match_witness :
    (∀ c ∈ ("at noon." : String).data, c ∉ tokenChars)
    ∧ (formatTokens ⟨2025, 12, 27, 0, 0, 0⟩ "YYYY-MM-DD" = "2025-12-27"
      ∧ formatTokensLocal ⟨2025, 12, 27, 0, 0, 0⟩ "YYYY-MM-DD" = "2025-12-27"
      ∧ formatTokens ⟨2025, 12, 27, 0, 0, 0⟩ "YYYYMM" = "202512"
      ∧ formatTokensLocal ⟨2025, 12, 27, 0, 0, 0⟩ "YYYYMM" = "202512"
      ∧ formatTokens ⟨2025, 12, 27, 9, 8, 7⟩ "at noon." = "at noon."
      ∧ formatTokensLocal ⟨2025, 12, 27, 9, 8, 7⟩ "at noon." = "at noon.") :=
  ⟨by decide, token_formatting_longest_match ⟨2025, 12, 27, 9, 8, 7⟩ "at noon." (by decide)⟩

/-! ### Dispatcher: permissive fallback and fail-fast validity -/

/-- C7: for a valid input, a mode string that is not `relative`, not a
preset name, and contains no recognized token formats exactly as the
`date` preset does — same output, same cache effect — and never raises. -/
theorem format_unrecognized_mode_fallback
    (renderD : DtfFmt → Int → String) (renderR : RtfFmt → Int → TimeUnit → String)
    (localOf : Int → LocalFields) (nowMs ms : Int) (p : String)
    (opts : List (String × JSVal)) (st : Caches)
    (h1 : p ≠ "relative") (h2 : p ≠ "date") (h3 : p ≠ "time") (h4 : p ≠ "datetime")
    (h5 : hasTokenRE p.data = false) :
    format renderD renderR localOf nowMs (some ms) p opts st
      = format renderD renderR localOf nowMs (some ms) "date" opts st
    ∧ ∃ out, (format renderD renderR localOf nowMs (some ms) p opts st).1
      = Except.ok out := by
  have hor : ¬ (p = "date" ∨ p = "time" ∨ p = "datetime") := by
    simp [h2, h3, h4]
  constructor
  · simp [format, h1, hor, h5]
  · simp only [format, if_neg h1, if_neg hor, h5, Bool.false_eq_true, if_false]
    exact ⟨_, rfl⟩

/-- Witness for C7: `format(epoch, "bogus-mode")` equals
`format(epoch, "date")` on empty caches and succeeds. -/
theorem format_unrecognized_mode_fallback_witness :
    (("bogus-mode" : String) ≠ "relative" ∧ ("bogus-mode" : String) ≠ "date"
      ∧ ("bogus-mode" : String) ≠ "time" ∧ ("bogus-mode" : String) ≠ "datetime"
      ∧ hasTokenRE ("bogus-mode" : String).data = false)
    ∧ (format (fun _ _ => "out") (fun _ _ _ => "rel") (fun _ => ⟨1970, 1, 1, 0, 0, 0⟩)
        0 (some 0) "bogus-mode" [] ⟨[], []⟩
      = format (fun _ _ => "out") (fun _ _ _ => "rel") (fun _ => ⟨1970, 1, 1, 0, 0, 0⟩)
        0 (some 0) "date" [] ⟨[], []⟩
      ∧ ∃ out, (format (fun _ _ => "out") (fun _ _ _ => "rel") (fun _ => ⟨1970, 1, 1, 0, 0, 0⟩)
        0 (some 0) "bogus-mode" [] ⟨[], []⟩).1 = Except.ok out) :=
  ⟨⟨by decide, by decide, by decide, by decide, by decide⟩,
    format_unrecognized_mode_fallback _ _ _ 0 0 "bogus-mode" [] ⟨[], []⟩
      (by decide) (by decide) (by decide) (by decide) (by decide)⟩

/-- C8: an invalid input (NaN time value after coercion) makes `format`
raise the invalid-date error synchronously, before any cache lookup or
formatter construction: the result is the error and the cache state is
returned untouched, whatever the mode, options, clock, and caches. -/
theorem format_invalid_input_no_mutation
    (renderD : DtfFmt → Int → String) (renderR : RtfFmt → Int → TimeUnit → String)
    (localOf : Int → LocalFields) (nowMs : Int) (p : String)
    (opts : List (String × JSVal)) (st : Caches) :
    format renderD renderR localOf nowMs none p opts st
      = (Except.error "Invalid date", st) := rfl

/-! ### UTC calendar arithmetic -/

theorem yoe_doy_spec (doe : Int) (h0 : 0 ≤ doe) (h1 : doe ≤ 146096) :
    0 ≤ yoeOfDoe doe ∧ yoeOfDoe doe ≤ 399 ∧ 0 ≤ doyOfDoe doe ∧ doyOfDoe doe ≤ 365
    ∧ 365 * yoeOfDoe doe + yoeOfDoe doe / 4 - yoeOfDoe doe / 100 + doyOfDoe doe = doe := by
  unfold yoeOfDoe doyOfDoe
  simp only []
  generalize hgc : clamp3 (doe / 36524) = c
  have hc : 0 ≤ c ∧ c ≤ 3 ∧ 36524 * c ≤ doe ∧ doe - 36524 * c ≤ 36524 := by
    rw [← hgc]; unfold clamp3; split <;> omega
  clear hgc
  generalize hgy : clamp3 ((doe - 36524 * c - 1461 * ((doe - 36524 * c) / 1461)) / 365) = yr
  have hyr : 0 ≤ yr ∧ yr ≤ 3
      ∧ 365 * yr ≤ doe - 36524 * c - 1461 * ((doe - 36524 * c) / 1461)
      ∧ doe - 36524 * c - 1461 * ((doe - 36524 * c) / 1461) - 365 * yr ≤ 365 := by
    rw [← hgy]; unfold clamp3; split <;> omega
  clear hgy
  have h4 : (100 * c + 4 * ((doe - 36524 * c) / 1461) + yr) / 4
      = 25 * c + (doe - 36524 * c) / 1461 := by omega
  have h100 : (100 * c + 4 * ((doe - 36524 * c) / 1461) + yr) / 100 = c := by omega
  omega

/-- Sanity anchors for the calendar model: the epoch, a leap day, a
skipped century leap day, and a date used by the token-formatting
claims. -/
theorem civilFromDays_anchors :
    civilFromDays 0 = (1970, 1, 1) ∧ civilFromDays 20449 = (2025, 12, 27)
    ∧ civilFromDays 11016 = (2000, 2, 29) ∧ civilFromDays (-1) = (1969, 12, 31)
    ∧ civilFromDays 47540 = (2100, 2, 28) ∧ civilFromDays 47541 = (2100, 3, 1)
    ∧ makeDay 2025 12 27 = 20449 ∧ makeDay 2000 2 29 = 11016 := by
  decide

set_option maxHeartbeats 2000000 in
theorem makeDay_civilFromDays (z : Int) :
    makeDay (civilFromDays z).1 (civilFromDays z).2.1 (civilFromDays z).2.2 = z := by
  unfold civilFromDays makeDay
  simp only []
  have hdoe : 0 ≤ z + 719468 - (z + 719468) / 146097 * 146097
      ∧ z + 719468 - (z + 719468) / 146097 * 146097 ≤ 146096 := by omega
  have hA := yoe_doy_spec (z + 719468 - (z + 719468) / 146097 * 146097) hdoe.1 hdoe.2
  generalize hgy : yoeOfDoe (z + 719468 - (z + 719468) / 146097 * 146097) = yoe at hA ⊢
  generalize hgd : doyOfDoe (z + 719468 - (z + 719468) / 146097 * 146097) = doy at hA ⊢
  clear hgy hgd
  have hmp : 0 ≤ (5 * doy + 2) / 153 ∧ (5 * doy + 2) / 153 ≤ 11 := by omega
  by_cases hm10 : (5 * doy + 2) / 153 < 10
  · rw [if_pos hm10]
    rw [if_neg (by omega : ¬ (5 * doy + 2) / 153 + 3 ≤ 2),
      if_neg (by omega : ¬ (5 * doy + 2) / 153 + 3 ≤ 2),
      if_pos (by omega : 2 < (5 * doy + 2) / 153 + 3)]
    simp only [add_sub_cancel_right]
    have h400 : (yoe + (z + 719468) / 146097 * 400) / 400 = (z + 719468) / 146097 := by
      omega
    rw [h400]
    simp only [add_sub_cancel_right]
    omega
  · rw [if_neg hm10]
    rw [if_pos (by omega : (5 * doy + 2) / 153 - 9 ≤ 2),
      if_pos (by omega : (5 * doy + 2) / 153 - 9 ≤ 2),
      if_neg (by omega : ¬ 2 < (5 * doy + 2) / 153 - 9)]
    simp only [add_sub_cancel_right, sub_add_cancel]
    have h400 : (yoe + (z + 719468) / 146097 * 400) / 400 = (z + 719468) / 146097 := by
      omega
    rw [h400]
    simp only [add_sub_cancel_right]
    omega

theorem makeDay_affine (y m d n : Int) : makeDay y m (d + n) = makeDay y m d + n := by
  unfold makeDay
  simp only []
  split_ifs <;> omega

theorem addDays_adds (t n : Int) (h : (t + n * msPerDay).natAbs ≤ 8640000000000000) :
    addDays t n = some (t + n * msPerDay) := by
  unfold addDays setUTCDate getUTCDate
  have h1 : makeDay (civilFromDays (jsDay t)).1 (civilFromDays (jsDay t)).2.1
      ((civilFromDays (jsDay t)).2.2 + n) = jsDay t + n := by
    rw [makeDay_affine, makeDay_civilFromDays]
  rw [h1]
  have h2 : (jsDay t + n) * msPerDay + timeWithinDay t = t + n * msPerDay := by
    unfold jsDay timeWithinDay msPerDay
    omega
  rw [h2]
  unfold timeClip
  rw [if_pos h]

/-- C9: for every valid time value and integer day count such that both
applications stay in the representable date range, adding `n` days and
then `-n` days with UTC calendar arithmetic returns exactly the original
instant. -/
theorem addDays_roundtrip (t n : Int)
    (h1 : t.natAbs ≤ 8640000000000000)
    (h2 : (t + n * msPerDay).natAbs ≤ 8640000000000000) :
    (addDays t n).bind (fun u => addDays u (-n)) = some t := by
  rw [addDays_adds t n h2]
  show addDays (t + n * msPerDay) (-n) = some t
  have h3 : t + n * msPerDay + (-n) * msPerDay = t := by ring
  have h4 := addDays_adds (t + n * msPerDay) (-n) (by rw [h3]; exact h1)
  rw [h3] at h4
  exact h4

/-- Witness for C9: one week forward and back across the epoch. -/
theorem addDays_roundtrip_witness :
    ((0 : Int).natAbs ≤ 8640000000000000
      ∧ ((0 : Int) + 7 * msPerDay).natAbs ≤ 8640000000000000)
    ∧ (addDays 0 7).bind (fun u => addDays u (-7)) = some 0 :=
  ⟨⟨by decide, by decide⟩, addDays_roundtrip 0 7 (by decide) (by decide)⟩

/-! ### addDays allocates, never mutates -/

/-- C10: `addDays` returns a freshly allocated `Date` distinct from its
argument, and the argument's time value is unchanged by the call. -/
theorem addDaysRef_no_mutation (st : DateStore) (r : Nat) (days : Int)
    (h : r < st.cells.length) :
    (addDaysRef st r days).1 ≠ r
    ∧ (addDaysRef st r days).2.cells.get? r = st.cells.get? r := by
  constructor
  · show st.cells.length ≠ r
    omega
  · show ((st.cells ++ [st.cells.getD r none]).set st.cells.length _).get? r
      = st.cells.get? r
    rw [List.get?_set_ne _ _ (by omega)]
    exact List.get?_append h

/-- Witness for C10 on a one-cell heap. -/
theorem addDaysRef_no_mutation_witness :
    (0 < (DateStore.mk [some 0]).cells.length)
    ∧ ((addDaysRef ⟨[some 0]⟩ 0 1).1 ≠ 0
      ∧ (addDaysRef ⟨[some 0]⟩ 0 1).2.cells.get? 0 = ([some 0] : List (Option Int)).get? 0) :=
  ⟨by decide, addDaysRef_no_mutation ⟨[some 0]⟩ 0 1 (by decide)⟩
